import Mathlib

set_option autoImplicit false

/-! Verification of the RandomArt drunken-bishop renderer (randomart.py).

The Python source is embedded shallowly: strings become `List Char`,
`collections.Counter` becomes a total function read as 0 at missing keys
together with pointwise update, Python exceptions become an explicit
error type, and Python `int` becomes `Int`.  Definitions follow the
source line by line; the few definitions whose doc comment starts with
"Modelled from the spec" are reference definitions taken from the
specification's words, used for refinement comparison only.
-/

/-- The NW direction vector of the source. -/
def NW : Int × Int := (-1, -1)

/-- The NE direction vector of the source. -/
def NE : Int × Int := (1, -1)

/-- The SW direction vector of the source. -/
def SW : Int × Int := (-1, 1)

/-- The SE direction vector of the source. -/
def SE : Int × Int := (1, 1)

/-- DEFAULT_ROOM_SIZE of the source. -/
def DEFAULT_ROOM_SIZE : Int × Int := (17, 9)

/-- Errors raised by the Python code: the assert in hex_to_dirs on odd
length, ValueError from int(pair, 16) on an unparseable pair, and
KeyError from the direction_map lookup on a pair that is not two bits. -/
inductive PyError where
  | assertionError
  | valueError
  | keyError
deriving DecidableEq

deriving instance DecidableEq for Except

/-- Value of a hex digit character, none otherwise, via the code point
ranges 48-57 for 0-9, 97-102 for a-f and 65-70 for A-F. -/
def hexVal? (c : Char) : Option Nat :=
  if 48 ≤ c.toNat ∧ c.toNat ≤ 57 then some (c.toNat - 48)
  else if 97 ≤ c.toNat ∧ c.toNat ≤ 102 then some (c.toNat - 97 + 10)
  else if 65 ≤ c.toNat ∧ c.toNat ≤ 70 then some (c.toNat - 65 + 10)
  else none

/-- ASCII whitespace accepted around the digits by Python int parsing. -/
def isPySpace (c : Char) : Bool :=
  c = ' ' || c = '\t' || c = '\n' || c = '\r' || c = '\x0b' || c = '\x0c'

/-- Model of Python int(s, 16) restricted to two-character strings of
ASCII characters (code points below 128), the slices hex_to_dirs feeds
it on ASCII input.  On such a pair Python accepts: two hex digits; a
sign followed by one hex digit; one hex digit with leading or trailing
ASCII whitespace (tab, newline, vertical tab, form feed, carriage
return, space).  Every other ASCII pair, and any other length, raises
ValueError, modelled as none.  Beyond ASCII, Python first normalizes
Unicode whitespace characters to a space and Unicode decimal digits to
ASCII digits before parsing, so it also accepts pairs such as a no-break
space before a hex digit or two Arabic-Indic digits; that normalization
is not modelled here, and the theorem characterizing the decoder's exact
acceptance boundary therefore carries an ASCII hypothesis. -/
def int16? : List Char → Option Int
  | [a, b] =>
    match hexVal? a, hexVal? b with
    | some x, some y => some ((16 * x + y : Nat) : Int)
    | _, _ =>
      if a = '+' then Option.map (fun v : Nat => (v : Int)) (hexVal? b)
      else if a = '-' then Option.map (fun v : Nat => -(v : Int)) (hexVal? b)
      else if isPySpace a then Option.map (fun v : Nat => (v : Int)) (hexVal? b)
      else if isPySpace b then Option.map (fun v : Nat => (v : Int)) (hexVal? a)
      else none
  | _ => none

/-- Accumulator form of the binary digit string of a natural number; the
first argument is structural fuel, always called with at least n, which
bounds the length of the halving chain of n. -/
def natToBinAux : Nat → Nat → List Char → List Char
  | 0, _, acc => acc
  | fuel + 1, n, acc =>
    if n = 0 then acc
    else natToBinAux fuel (n / 2) ((if n % 2 = 1 then '1' else '0') :: acc)

/-- Binary digit string of a natural number: Python bin(n) without the 0b
prefix, for n nonnegative. -/
def natToBin (n : Nat) : List Char :=
  if n = 0 then ['0'] else natToBinAux n n []

/-- Python bin(d) with the first two characters sliced off.  For negative
d the slice keeps the b of the prefix: bin(-5) is -0b101, sliced to b101. -/
def pyBin (d : Int) : List Char :=
  if 0 ≤ d then natToBin d.toNat else 'b' :: natToBin (-d).toNat

/-- Python s.zfill(8) for the sign-free strings produced by pyBin. -/
def zfill8 (l : List Char) : List Char :=
  List.replicate (8 - l.length) '0' ++ l

/-- The slicing s[i:i+2] for i in range(0, len(s), 2). -/
def chunk2 : List Char → List (List Char)
  | [] => []
  | [a] => [[a]]
  | a :: b :: rest => [a, b] :: chunk2 rest

/-- One byte of hex_to_dirs: decimal = int(pair, 16), then
bin(decimal) sliced past the prefix and zero-filled to 8 characters. -/
def binByte? (p : List Char) : Except PyError (List Char) :=
  match int16? p with
  | none => .error .valueError
  | some d => .ok (zfill8 (pyBin d))

/-- The first loop of hex_to_dirs, building bin_bytes. -/
def binBytes : List (List Char) → Except PyError (List (List Char))
  | [] => .ok []
  | p :: rest =>
    match binByte? p with
    | .error e => .error e
    | .ok b => (binBytes rest).map (fun bs => b :: bs)

/-- The second loop of hex_to_dirs: split each byte string into bit
pairs, reverse within the byte, and extend the global list. -/
def collect_pairs : List (List Char) → List (List Char)
  | [] => []
  | byte :: rest => (chunk2 byte).reverse ++ collect_pairs rest

/-- The direction_map dict of the source; a missing key is a KeyError. -/
def direction_map : List Char → Option (Int × Int)
  | ['0', '0'] => some NW
  | ['0', '1'] => some NE
  | ['1', '0'] => some SW
  | ['1', '1'] => some SE
  | _ => none

/-- The final list comprehension of hex_to_dirs, looking every bit pair
up in direction_map. -/
def mapDirs : List (List Char) → Except PyError (List (Int × Int))
  | [] => .ok []
  | p :: rest =>
    match direction_map p with
    | none => .error .keyError
    | some m => (mapDirs rest).map (fun ms => m :: ms)

/-- hex_to_dirs from the source: assert even length, parse the byte
pairs, split and reverse the bit pairs per byte, map through
direction_map. -/
def hex_to_dirs (s : List Char) : Except PyError (List (Int × Int)) :=
  if s.length % 2 = 0 then
    match binBytes (chunk2 s) with
    | .error e => .error e
    | .ok bin_bytes => mapDirs (collect_pairs bin_bytes)
  else .error .assertionError

/-- get_coin_sym from the source: the dict literal with a .get fallback
of the bang character, written as a decision chain over the keys. -/
def get_coin_sym (coins : Int) : Char :=
  if coins = 0 then ' '
  else if coins = 1 then '.'
  else if coins = 2 then 'o'
  else if coins = 3 then '+'
  else if coins = 4 then '='
  else if coins = 5 then '*'
  else if coins = 6 then 'B'
  else if coins = 7 then 'O'
  else if coins = 8 then 'X'
  else if coins = 9 then '@'
  else if coins = 10 then '%'
  else if coins = 11 then '&'
  else if coins = 12 then '#'
  else if coins = 13 then '/'
  else if coins = 14 then '^'
  else if coins = 15 then 'S'
  else if coins = 16 then 'E'
  else '!'

/-- The RandomArt class state set by __init__; hashalg none models
Python None, some of a string models a string label. -/
structure RandomArt where
  hashalg : Option String
  room_size : Int × Int
  start : Int × Int

/-- RandomArt.__init__: no validation is performed; when no start is
supplied it defaults to the floor-halved room size (Python floor
division). -/
def RandomArt.init (hashalg : Option String) (room_size : Int × Int)
    (start : Option (Int × Int)) : RandomArt :=
  { hashalg := hashalg
    room_size := room_size
    start := start.getD (Int.fdiv room_size.1 2, Int.fdiv room_size.2 2) }

/-- RandomArt.get_position: add the move, then clamp with min against the
maxima and then max against 0, each axis independently. -/
def RandomArt.get_position (self : RandomArt) (position move : Int × Int) : Int × Int :=
  let x := position.1
  let y := position.2
  let dir_x := move.1
  let dir_y := move.2
  let max_x := self.room_size.1 - 1
  let max_y := self.room_size.2 - 1
  let new_x := max (min (x + dir_x) max_x) 0
  let new_y := max (min (y + dir_y) max_y) 0
  (new_x, new_y)

/-- Pointwise update of a Counter viewed as a total function. -/
def cupdate (room : Int × Int → Nat) (p : Int × Int) (v : Nat) : Int × Int → Nat :=
  fun q => if q = p then v else room q

/-- One iteration of the loop in get_room: move, then increment the
counter at the new position. -/
def RandomArt.step (self : RandomArt) (st : (Int × Int) × (Int × Int → Nat))
    (move : Int × Int) : (Int × Int) × (Int × Int → Nat) :=
  let pos := self.get_position st.1 move
  (pos, cupdate st.2 pos (st.2 pos + 1))

/-- RandomArt.get_room, returning both the Counter and the loop's final
current_position (a local variable in the source, exposed here so the
end cell can be named in specifications).  The source's return value is
the first component. -/
def RandomArt.get_room_aux (self : RandomArt) (hex_string : List Char) :
    Except PyError ((Int × Int → Nat) × (Int × Int)) :=
  match hex_to_dirs hex_string with
  | .error e => .error e
  | .ok dirs =>
    let fin := dirs.foldl self.step (self.start, fun _ => 0)
    .ok (cupdate (cupdate fin.2 self.start 15) fin.1 16, fin.1)

/-- RandomArt.get_room exactly as returned by the source: the Counter
after the walk and the two sentinel overwrites. -/
def RandomArt.get_room (self : RandomArt) (hex_string : List Char) :
    Except PyError (Int × Int → Nat) :=
  (self.get_room_aux hex_string).map Prod.fst

/-- The successive values of current_position in the get_room loop. -/
def RandomArt.walk_positions (self : RandomArt) : Int × Int → List (Int × Int) → List (Int × Int)
  | _, [] => []
  | pos, m :: ms =>
    let next := self.get_position pos m
    next :: self.walk_positions next ms

/-- Python s.center(width, fill): CPython computes marg = width - len and
left = marg / 2 + (marg AND width AND 1), returning s unchanged when
width is at most len. -/
def pyCenter (s : List Char) (width : Int) (fill : Char) : List Char :=
  if width ≤ (s.length : Int) then s
  else
    let marg := (width - (s.length : Int)).toNat
    let left := marg / 2 + (marg &&& width.toNat &&& 1)
    List.replicate left fill ++ s ++ List.replicate (marg - left) fill

/-- A horizontal border of display: plus, width dashes, plus. -/
def border_line (w : Int) : List Char :=
  '+' :: List.replicate w.toNat '-' ++ ['+']

/-- One body row of display: pipe, the glyph of each cell of row y taken
left to right, pipe. -/
def row_line (self : RandomArt) (room : Int × Int → Nat) (y : Nat) : List Char :=
  '|' :: ((List.range self.room_size.1.toNat).map
    (fun x : Nat => get_coin_sym ((room ((x : Int), (y : Int)) : Nat) : Int))) ++ ['|']

/-- The bottom border of display: with a non-empty, non-None hashalg the
bracketed label centered in dashes, else a plain border. -/
def bottom_line (self : RandomArt) : List Char :=
  match self.hashalg with
  | some l =>
    if l = "" then border_line self.room_size.1
    else '+' :: pyCenter ('[' :: l.data ++ [']']) self.room_size.1 '-' ++ ['+']
  | none => border_line self.room_size.1

/-- RandomArt.display: top border, the body rows in increasing y order,
bottom border; every line but the last is terminated by a newline. -/
def RandomArt.display (self : RandomArt) (room : Int × Int → Nat) : List Char :=
  (border_line self.room_size.1 ++ ['\n'])
  ++ ((List.range self.room_size.2.toNat).map
      (fun y => row_line self room y ++ ['\n'])).flatten
  ++ bottom_line self

/-- RandomArt.__call__: display applied to get_room of the input. -/
def RandomArt.call (self : RandomArt) (hex_string : List Char) : Except PyError (List Char) :=
  (self.get_room hex_string).map self.display

/-- Split a character list at newline characters: the lines of the
rendered output. -/
def splitNL : List Char → List (List Char)
  | [] => [[]]
  | c :: rest =>
    match splitNL rest with
    | [] => [[]]
    | h :: t => if c = '\n' then [] :: h :: t else (c :: h) :: t

/-- Modelled from the spec: the move assigned to a two-bit group value,
00 to NW, 01 to NE, 10 to SW, 11 to SE. -/
def moveOfCode (k : Nat) : Int × Int :=
  if k = 0 then NW else if k = 1 then NE else if k = 2 then SW else SE

/-- Modelled from the spec: the four moves contributed by one byte value,
its four two-bit groups taken least-significant pair first. -/
def spec_byte_moves (n : Nat) : List (Int × Int) :=
  [moveOfCode (n % 4), moveOfCode (n / 4 % 4), moveOfCode (n / 16 % 4), moveOfCode (n / 64 % 4)]

/-- Modelled from the spec: the reference decoder of the byte-pair
ordering claim, defined on even-length hex-digit strings. -/
def spec_decode : List Char → List (Int × Int)
  | a :: b :: t =>
    (match hexVal? a, hexVal? b with
     | some x, some y => spec_byte_moves (16 * x + y)
     | _, _ => []) ++ spec_decode t
  | _ => []

/-- Character number c of line number r of a rendered output, with a
fallback character when the render failed or the index is out of range. -/
def lineCharAt (res : Except PyError (List Char)) (r c : Nat) : Char :=
  match res with
  | .error _ => '?'
  | .ok art => ((splitNL art).getD r []).getD c '?'

/-- The counter value get_room assigns to a cell, 0 when decoding fails. -/
def roomAt (res : Except PyError (Int × Int → Nat)) (p : Int × Int) : Nat :=
  match res with
  | .error _ => 0
  | .ok room => room p

/-- Side condition of the amended renderer-shape claim: the label is
absent or empty, or fits in the width once bracketed and contains no
newline character. -/
def labelOk (hashalg : Option String) (w : Nat) : Prop :=
  match hashalg with
  | none => True
  | some l => l = "" ∨ ('\n' ∉ l.data ∧ l.length + 2 ≤ w)

/-- Induction principle consuming a character list two at a time, the
shape of the byte-pair slicing. -/
def twoStepInd {motive : List Char → Prop} (nil : motive [])
    (one : ∀ a, motive [a])
    (two : ∀ a b t, motive t → motive (a :: b :: t)) : ∀ s, motive s
  | [] => nil
  | [a] => one a
  | a :: b :: t => two a b t (twoStepInd nil one two t)

example : hex_to_dirs "00".data = .ok [NW, NW, NW, NW] := by decide

example : hex_to_dirs "+0".data = .ok [NW, NW, NW, NW] := by decide

example : hex_to_dirs "4b".data = .ok [SE, SW, NW, NE] := by decide

example : spec_decode "4b".data = [SE, SW, NW, NE] := by decide

example : hex_to_dirs "abc".data = .error .assertionError := by decide

example : hex_to_dirs "-1".data = .error .keyError := by decide

example : hex_to_dirs "zz".data = .error .valueError := by decide

set_option maxRecDepth 4000

theorem coin_out (i : Int) (hi : i < 0 ∨ 16 < i) : get_coin_sym i = '!' := by
  unfold get_coin_sym
  repeat rw [if_neg (by omega)]

theorem get_coin_sym_ne_nl (i : Int) : get_coin_sym i ≠ '\n' := by
  rcases lt_or_ge i 0 with h | h
  · rw [coin_out i (Or.inl h)]; decide
  · rcases le_or_lt i 16 with h2 | h2
    · interval_cases i <;> decide
    · rw [coin_out i (Or.inr h2)]; decide

/-- C9: the symbol mapper is a total function: every count from 0 to 16
maps exactly per the fixed table, and every integer outside that range,
negatives included, maps to the bang fallback. -/
theorem C9_coin_sym_total :
    (get_coin_sym 0 = ' ' ∧ get_coin_sym 1 = '.' ∧ get_coin_sym 2 = 'o'
      ∧ get_coin_sym 3 = '+' ∧ get_coin_sym 4 = '=' ∧ get_coin_sym 5 = '*'
      ∧ get_coin_sym 6 = 'B' ∧ get_coin_sym 7 = 'O' ∧ get_coin_sym 8 = 'X'
      ∧ get_coin_sym 9 = '@' ∧ get_coin_sym 10 = '%' ∧ get_coin_sym 11 = '&'
      ∧ get_coin_sym 12 = '#' ∧ get_coin_sym 13 = '/' ∧ get_coin_sym 14 = '^'
      ∧ get_coin_sym 15 = 'S' ∧ get_coin_sym 16 = 'E')
    ∧ ∀ coins : Int, coins < 0 ∨ 16 < coins → get_coin_sym coins = '!' :=
  ⟨by decide, coin_out⟩

theorem C9_coin_sym_total_witness : get_coin_sym 17 = '!' ∧ get_coin_sym (-1) = '!' :=
  ⟨C9_coin_sym_total.2 17 (Or.inr (by decide)),
   C9_coin_sym_total.2 (-1) (Or.inl (by decide))⟩

/-- C2: Scenario A: for hex string 00 with the 17 by 9 room and start
(8, 4), the decoded moves are four NW moves, the walk visits (7, 3),
(6, 2), (5, 1), (4, 0) in that order, the end position is (4, 0), and
the rendered output shows S at cell (8, 4) and E at cell (4, 0). -/
theorem C2_scenario_a :
    hex_to_dirs "00".data = .ok [NW, NW, NW, NW]
    ∧ (RandomArt.init none (17, 9) none).start = (8, 4)
    ∧ (RandomArt.init none (17, 9) none).walk_positions (8, 4) [NW, NW, NW, NW]
        = [(7, 3), (6, 2), (5, 1), (4, 0)]
    ∧ ((RandomArt.init none (17, 9) none).get_room_aux "00".data).map Prod.snd
        = .ok (4, 0)
    ∧ lineCharAt ((RandomArt.init none (17, 9) none).call "00".data) (4 + 1) (8 + 1) = 'S'
    ∧ lineCharAt ((RandomArt.init none (17, 9) none).call "00".data) (0 + 1) (4 + 1) = 'E' := by
  refine ⟨by decide, by decide, by decide, by decide, by decide, by decide⟩

/-- C6 counterexample: with room dimensions (0, 9) construction does not
fail: __init__ returns normally, recording the dimensions unchanged and
the default start (0, 4). -/
theorem C6_counterexample :
    RandomArt.init none (0, 9) none
      = { hashalg := none, room_size := (0, 9), start := (0, 4) } := rfl

/-- C6 amended: __init__ performs no validation and never fails: any
room size (non-positive dimensions included) and any explicit start
position (out of bounds included) are recorded as given, the default
start is the floor-halved room size, and even the full pipeline on the
(0, 9) room succeeds rather than raising a configuration error. -/
theorem C6_amended :
    (∀ (hashalg : Option String) (rs st : Int × Int),
      RandomArt.init hashalg rs (some st)
        = { hashalg := hashalg, room_size := rs, start := st })
    ∧ (∀ (hashalg : Option String) (rs : Int × Int),
      RandomArt.init hashalg rs none
        = { hashalg := hashalg, room_size := rs,
            start := (Int.fdiv rs.1 2, Int.fdiv rs.2 2) })
    ∧ ((RandomArt.init none (0, 9) none).call "00".data).isOk = true :=
  ⟨fun _ _ _ => rfl, fun _ _ => rfl, by decide⟩

/-- C10: the empty hex string decodes successfully to the empty move
list, the walk takes no steps so the end position equals the start, the
start cell holds 16 and renders E, and every other cell holds 0 and
renders the blank glyph. -/
theorem C10_empty_string (cfg : RandomArt) (p : Int × Int) (hp : p ≠ cfg.start) :
    hex_to_dirs [] = .ok []
    ∧ (cfg.get_room_aux []).map Prod.snd = .ok cfg.start
    ∧ roomAt (cfg.get_room []) cfg.start = 16
    ∧ get_coin_sym (roomAt (cfg.get_room []) cfg.start : Int) = 'E'
    ∧ roomAt (cfg.get_room []) p = 0
    ∧ get_coin_sym (roomAt (cfg.get_room []) p : Int) = ' ' := by
  have hr : cfg.get_room_aux []
      = .ok (cupdate (cupdate (fun _ => 0) cfg.start 15) cfg.start 16, cfg.start) := rfl
  have hroom : cfg.get_room []
      = .ok (cupdate (cupdate (fun _ => 0) cfg.start 15) cfg.start 16) := by
    unfold RandomArt.get_room
    rw [hr]
    rfl
  refine ⟨rfl, by rw [hr]; rfl, ?_, ?_, ?_, ?_⟩
  · simp [roomAt, hroom, cupdate]
  · simp only [roomAt, hroom, cupdate, if_pos rfl]
    decide
  · simp [roomAt, hroom, cupdate, hp]
  · simp only [roomAt, hroom, cupdate, if_neg hp]
    decide

theorem C10_empty_string_witness :
    hex_to_dirs [] = .ok []
    ∧ ((RandomArt.init none (17, 9) none).get_room_aux []).map Prod.snd
        = .ok (RandomArt.init none (17, 9) none).start
    ∧ roomAt ((RandomArt.init none (17, 9) none).get_room [])
        (RandomArt.init none (17, 9) none).start = 16
    ∧ get_coin_sym (roomAt ((RandomArt.init none (17, 9) none).get_room [])
        (RandomArt.init none (17, 9) none).start : Int) = 'E'
    ∧ roomAt ((RandomArt.init none (17, 9) none).get_room []) (0, 0) = 0
    ∧ get_coin_sym (roomAt ((RandomArt.init none (17, 9) none).get_room [])
        (0, 0) : Int) = ' ' :=
  C10_empty_string (RandomArt.init none (17, 9) none) (0, 0) (by decide)

/-- C4: after the walk, get_room overwrites the start cell with 15 and
then the end cell with 16, replacing any accumulated count; the end cell
therefore always reads 16 and renders E (so a coinciding start and end
shows E, never S), while the start cell reads 15 whenever start and end
differ. -/
theorem C4_sentinel_overwrites (cfg : RandomArt) (s : List Char)
    (room : Int × Int → Nat) (endPos : Int × Int)
    (h : cfg.get_room_aux s = .ok (room, endPos)) :
    room endPos = 16
    ∧ (cfg.start ≠ endPos → room cfg.start = 15)
    ∧ get_coin_sym (room endPos : Int) = 'E' := by
  unfold RandomArt.get_room_aux at h
  cases hd : hex_to_dirs s with
  | error e => rw [hd] at h; cases h
  | ok dirs =>
    rw [hd] at h
    simp only [Except.ok.injEq, Prod.mk.injEq] at h
    obtain ⟨hr, he⟩ := h
    subst he
    subst hr
    refine ⟨by simp [cupdate], ?_, ?_⟩
    · intro hne
      simp [cupdate, hne]
    · have h1 : ∀ (r : Int × Int → Nat) (q : Int × Int), cupdate r q 16 q = 16 := by
        intro r q
        simp [cupdate]
      rw [h1]
      decide

theorem C4_sentinel_overwrites_witness :
    (cupdate (cupdate (fun _ => 0) (RandomArt.init none (17, 9) none).start 15)
        ((8 : Int), (4 : Int)) 16) (8, 4) = 16 :=
  (C4_sentinel_overwrites (RandomArt.init none (17, 9) none) []
    (cupdate (cupdate (fun _ => 0) (RandomArt.init none (17, 9) none).start 15)
      ((8 : Int), (4 : Int)) 16) (8, 4) rfl).1

theorem get_position_bounds (w h : Int) (hw : 1 ≤ w) (hh : 1 ≤ h)
    (cfg : RandomArt) (hc : cfg.room_size = (w, h)) (p m : Int × Int) :
    0 ≤ (cfg.get_position p m).1 ∧ (cfg.get_position p m).1 < w
    ∧ 0 ≤ (cfg.get_position p m).2 ∧ (cfg.get_position p m).2 < h := by
  simp only [RandomArt.get_position, hc]
  simp
  omega

/-- C3: in a room with positive width and height and a start position
within bounds, every position produced by a walk step through
get_position satisfies 0 ≤ x < width and 0 ≤ y < height, after every
step of the walk. -/
theorem C3_walk_in_bounds (w h : Int) (hw : 1 ≤ w) (hh : 1 ≤ h)
    (cfg : RandomArt) (hc : cfg.room_size = (w, h))
    (start : Int × Int)
    (hs : 0 ≤ start.1 ∧ start.1 < w ∧ 0 ≤ start.2 ∧ start.2 < h)
    (moves : List (Int × Int)) :
    ∀ p ∈ cfg.walk_positions start moves,
      0 ≤ p.1 ∧ p.1 < w ∧ 0 ≤ p.2 ∧ p.2 < h := by
  induction moves generalizing start with
  | nil =>
    intro p hp
    simp [RandomArt.walk_positions] at hp
  | cons m ms ih =>
    intro p hp
    simp only [RandomArt.walk_positions, List.mem_cons] at hp
    rcases hp with rfl | hp
    · exact get_position_bounds w h hw hh cfg hc start m
    · exact ih (cfg.get_position start m) (get_position_bounds w h hw hh cfg hc start m) p hp

theorem C3_walk_in_bounds_witness :
    0 ≤ ((7 : Int), (3 : Int)).1 ∧ ((7 : Int), (3 : Int)).1 < 17
    ∧ 0 ≤ ((7 : Int), (3 : Int)).2 ∧ ((7 : Int), (3 : Int)).2 < 9 :=
  C3_walk_in_bounds 17 9 (by decide) (by decide) (RandomArt.init none (17, 9) none) rfl
    (8, 4) (by decide) [NW, NW, NW, NW] (7, 3) (by decide)

/-- C8: from each corner cell the outward diagonal move leaves the
position unchanged (each axis clamped independently, min toward the
maximum then max toward 0, no bounce or reflect), the walk step still
increments that same cell's count by one, and in general get_position
computes exactly the per-axis clamp new = max(0, min(candidate, dim - 1)). -/
theorem C8_corner_clamp (w h : Int) (hw : 1 ≤ w) (hh : 1 ≤ h)
    (cfg : RandomArt) (hc : cfg.room_size = (w, h)) (room : Int × Int → Nat) :
    (cfg.get_position (0, 0) NW = (0, 0)
      ∧ (cfg.step ((0, 0), room) NW).2 (0, 0) = room (0, 0) + 1)
    ∧ (cfg.get_position (w - 1, 0) NE = (w - 1, 0)
      ∧ (cfg.step ((w - 1, 0), room) NE).2 (w - 1, 0) = room (w - 1, 0) + 1)
    ∧ (cfg.get_position (0, h - 1) SW = (0, h - 1)
      ∧ (cfg.step ((0, h - 1), room) SW).2 (0, h - 1) = room (0, h - 1) + 1)
    ∧ (cfg.get_position (w - 1, h - 1) SE = (w - 1, h - 1)
      ∧ (cfg.step ((w - 1, h - 1), room) SE).2 (w - 1, h - 1) = room (w - 1, h - 1) + 1)
    ∧ ∀ p m : Int × Int,
        cfg.get_position p m
          = (max 0 (min (p.1 + m.1) (w - 1)), max 0 (min (p.2 + m.2) (h - 1))) := by
  have g : ∀ p m : Int × Int,
      cfg.get_position p m
        = (max 0 (min (p.1 + m.1) (w - 1)), max 0 (min (p.2 + m.2) (h - 1))) := by
    intro p m
    simp only [RandomArt.get_position, hc]
    simp [Prod.ext_iff] <;> omega
  have e1 : cfg.get_position (0, 0) NW = (0, 0) := by
    rw [g]
    simp [NW, Prod.ext_iff] <;> omega
  have e2 : cfg.get_position (w - 1, 0) NE = (w - 1, 0) := by
    rw [g]
    simp [NE, Prod.ext_iff] <;> omega
  have e3 : cfg.get_position (0, h - 1) SW = (0, h - 1) := by
    rw [g]
    simp [SW, Prod.ext_iff] <;> omega
  have e4 : cfg.get_position (w - 1, h - 1) SE = (w - 1, h - 1) := by
    rw [g]
    simp [SE, Prod.ext_iff] <;> omega
  refine ⟨⟨e1, ?_⟩, ⟨e2, ?_⟩, ⟨e3, ?_⟩, ⟨e4, ?_⟩, g⟩
  · simp only [RandomArt.step, cupdate]
    rw [e1, if_pos rfl]
  · simp only [RandomArt.step, cupdate]
    rw [e2, if_pos rfl]
  · simp only [RandomArt.step, cupdate]
    rw [e3, if_pos rfl]
  · simp only [RandomArt.step, cupdate]
    rw [e4, if_pos rfl]

theorem C8_corner_clamp_witness :
    (RandomArt.init none (17, 9) none).get_position (0, 0) NW = (0, 0)
    ∧ ((RandomArt.init none (17, 9) none).step ((0, 0), fun _ => 0) NW).2 (0, 0)
        = (fun (_ : Int × Int) => 0) (0, 0) + 1 :=
  (C8_corner_clamp 17 9 (by decide) (by decide) (RandomArt.init none (17, 9) none) rfl
    (fun _ => 0)).1

theorem hexVal?_le15 {c : Char} {v : Nat} (h : hexVal? c = some v) : v ≤ 15 := by
  unfold hexVal? at h
  repeat' split at h
  all_goals first
    | (injection h with h; omega)
    | (cases h)

theorem int16?_pair (a b : Char) :
    int16? [a, b]
      = match hexVal? a, hexVal? b with
        | some x, some y => some ((16 * x + y : Nat) : Int)
        | _, _ =>
          if a = '+' then Option.map (fun v : Nat => (v : Int)) (hexVal? b)
          else if a = '-' then Option.map (fun v : Nat => -(v : Int)) (hexVal? b)
          else if isPySpace a then Option.map (fun v : Nat => (v : Int)) (hexVal? b)
          else if isPySpace b then Option.map (fun v : Nat => (v : Int)) (hexVal? a)
          else none := rfl

theorem int16?_bounds {p : List Char} {d : Int} (h : int16? p = some d) :
    -15 ≤ d ∧ d ≤ 255 := by
  rcases p with _ | ⟨a, _ | ⟨b, _ | ⟨c, t⟩⟩⟩
  · simp [int16?] at h
  · simp [int16?] at h
  · rw [int16?_pair] at h
    cases hva : hexVal? a with
    | some x =>
      cases hvb : hexVal? b with
      | some y =>
        simp only [hva, hvb] at h
        injection h with h
        have hx := hexVal?_le15 hva
        have hy := hexVal?_le15 hvb
        omega
      | none =>
        simp only [hva, hvb, Option.map_none', Option.map_some'] at h
        repeat' split at h
        all_goals first
          | (injection h with h; have hx := hexVal?_le15 hva; omega)
          | (cases h)
    | none =>
      cases hvb : hexVal? b with
      | some y =>
        simp only [hva, hvb, Option.map_none', Option.map_some'] at h
        repeat' split at h
        all_goals first
          | (injection h with h; have hy := hexVal?_le15 hvb; omega)
          | (cases h)
      | none =>
        simp only [hva, hvb, Option.map_none'] at h
        repeat' split at h
        all_goals cases h
  · simp [int16?] at h

theorem byte_groups_ok : ∀ n : Fin 256,
    mapDirs ((chunk2 (zfill8 (natToBin n.val))).reverse) = .ok (spec_byte_moves n.val) := by
  decide

theorem byte_groups_neg : ∀ k : Fin 15,
    mapDirs ((chunk2 (zfill8 (pyBin (-((k.val : Int) + 1))))).reverse) = .error .keyError := by
  decide

theorem pyBin_natCast (n : Nat) : pyBin (n : Int) = natToBin n := by
  unfold pyBin
  rw [if_pos (Int.natCast_nonneg n)]
  rw [Int.toNat_natCast]

theorem mapDirs_cons (q : List Char) (rest : List (List Char)) :
    mapDirs (q :: rest)
      = match direction_map q with
        | none => .error .keyError
        | some m => (mapDirs rest).map (fun ms => m :: ms) := rfl

theorem binBytes_cons (p : List Char) (rest : List (List Char)) :
    binBytes (p :: rest)
      = match binByte? p with
        | .error e => .error e
        | .ok b => (binBytes rest).map (fun bs => b :: bs) := rfl

theorem hex_to_dirs_even (s : List Char) (he : s.length % 2 = 0) :
    hex_to_dirs s
      = match binBytes (chunk2 s) with
        | .error e => .error e
        | .ok bin_bytes => mapDirs (collect_pairs bin_bytes) := by
  unfold hex_to_dirs
  rw [if_pos he]

theorem mapDirs_append_ok {l1 : List (List Char)} {m1 : List (Int × Int)}
    (h : mapDirs l1 = .ok m1) (l2 : List (List Char)) :
    mapDirs (l1 ++ l2) = (mapDirs l2).map (fun m2 => m1 ++ m2) := by
  induction l1 generalizing m1 with
  | nil =>
    have h0 : (Except.ok [] : Except PyError (List (Int × Int))) = .ok m1 := h
    injection h0 with h0
    subst h0
    rw [List.nil_append]
    cases hl : mapDirs l2 <;> simp [Except.map]
  | cons q l1 ih =>
    cases hq : direction_map q with
    | none =>
      rw [mapDirs_cons, hq] at h
      exact Except.noConfusion h
    | some m =>
      rw [mapDirs_cons, hq] at h
      cases hl1 : mapDirs l1 with
      | error e =>
        rw [hl1] at h
        exact Except.noConfusion h
      | ok ms =>
        rw [hl1] at h
        have h' : (Except.ok (m :: ms) : Except PyError (List (Int × Int))) = .ok m1 := h
        injection h' with h'
        subst h'
        rw [List.cons_append, mapDirs_cons, hq, ih hl1]
        cases mapDirs l2 <;> simp [Except.map]

theorem mapDirs_append_isOk {l1 l2 : List (List Char)}
    (h : (mapDirs (l1 ++ l2)).isOk = true) :
    (mapDirs l1).isOk = true ∧ (mapDirs l2).isOk = true := by
  induction l1 with
  | nil => exact ⟨rfl, h⟩
  | cons q l1 ih =>
    rw [List.cons_append, mapDirs_cons] at h
    cases hq : direction_map q with
    | none =>
      rw [hq] at h
      exact Bool.noConfusion h
    | some m =>
      rw [hq] at h
      cases hl : mapDirs (l1 ++ l2) with
      | error e =>
        rw [hl] at h
        exact Bool.noConfusion h
      | ok ms =>
        obtain ⟨h1, h2⟩ := ih (by rw [hl]; rfl)
        refine ⟨?_, h2⟩
        rw [mapDirs_cons, hq]
        cases hl1 : mapDirs l1 with
        | error e =>
          rw [hl1] at h1
          exact Bool.noConfusion h1
        | ok _ => rfl

theorem hex_to_dirs_cons_ok {a b : Char} {t : List Char} {d : Int}
    (ht : t.length % 2 = 0)
    (hab : int16? [a, b] = some d)
    {mB : List (Int × Int)}
    (hB : mapDirs ((chunk2 (zfill8 (pyBin d))).reverse) = .ok mB)
    {mT : List (Int × Int)}
    (hT : hex_to_dirs t = .ok mT) :
    hex_to_dirs (a :: b :: t) = .ok (mB ++ mT) := by
  have he2 : (a :: b :: t).length % 2 = 0 := by
    simp only [List.length_cons]
    omega
  rw [hex_to_dirs_even _ he2]
  rw [hex_to_dirs_even _ ht] at hT
  have hc : chunk2 (a :: b :: t) = [a, b] :: chunk2 t := rfl
  have hbb : binByte? [a, b] = .ok (zfill8 (pyBin d)) := by
    unfold binByte?
    rw [hab]
  rw [hc, binBytes_cons, hbb]
  cases hbs : binBytes (chunk2 t) with
  | error e =>
    rw [hbs] at hT
    exact Except.noConfusion hT
  | ok bs =>
    rw [hbs] at hT
    have hT' : mapDirs (collect_pairs bs) = .ok mT := hT
    show mapDirs (collect_pairs (zfill8 (pyBin d) :: bs)) = .ok (mB ++ mT)
    have hcp : collect_pairs (zfill8 (pyBin d) :: bs)
        = (chunk2 (zfill8 (pyBin d))).reverse ++ collect_pairs bs := rfl
    rw [hcp, mapDirs_append_ok hB, hT']
    rfl

/-- C1: on every even-length hex-digit string the decoder agrees with
the reference definition taken from the spec (bytes left to right, the
four two-bit groups of each byte reversed so the least-significant pair
comes first, 00 NW, 01 NE, 10 SW, 11 SE), and so the output has exactly
4 * (len / 2) moves. -/
theorem C1_decoder_refines (s : List Char) (heven : s.length % 2 = 0)
    (hhex : ∀ c ∈ s, (hexVal? c).isSome = true) :
    hex_to_dirs s = .ok (spec_decode s)
    ∧ (spec_decode s).length = 4 * (s.length / 2) := by
  induction s using twoStepInd with
  | nil => exact ⟨rfl, rfl⟩
  | one a => simp at heven
  | two a b t ih =>
    obtain ⟨x, hx⟩ := Option.isSome_iff_exists.mp (hhex a (by simp))
    obtain ⟨y, hy⟩ := Option.isSome_iff_exists.mp (hhex b (by simp))
    have ht : t.length % 2 = 0 := by
      simp only [List.length_cons] at heven
      omega
    have hhext : ∀ c ∈ t, (hexVal? c).isSome = true := fun c hc => hhex c (by simp [hc])
    obtain ⟨ihd, ihl⟩ := ih ht hhext
    have hx15 := hexVal?_le15 hx
    have hy15 := hexVal?_le15 hy
    have hab : int16? [a, b] = some ((16 * x + y : Nat) : Int) := by
      rw [int16?_pair, hx, hy]
    have hB : mapDirs ((chunk2 (zfill8 (pyBin ((16 * x + y : Nat) : Int)))).reverse)
        = .ok (spec_byte_moves (16 * x + y)) := by
      rw [pyBin_natCast]
      exact byte_groups_ok ⟨16 * x + y, by omega⟩
    have hd := hex_to_dirs_cons_ok ht hab hB ihd
    have hs : spec_decode (a :: b :: t) = spec_byte_moves (16 * x + y) ++ spec_decode t := by
      simp [spec_decode, hx, hy]
    refine ⟨?_, ?_⟩
    · rw [hd, hs]
    · rw [hs, List.length_append, ihl,
        show (spec_byte_moves (16 * x + y)).length = 4 from rfl]
      simp only [List.length_cons]
      omega

theorem C1_decoder_refines_witness :
    hex_to_dirs "a1".data = .ok (spec_decode "a1".data)
    ∧ (spec_decode "a1".data).length = 4 * ("a1".data.length / 2) :=
  C1_decoder_refines "a1".data (by decide) (by decide)

theorem hex_ok_of_pairs (s : List Char) (he : s.length % 2 = 0)
    (hp : ∀ p ∈ chunk2 s, ∃ n : Nat, int16? p = some (n : Int)) :
    (hex_to_dirs s).isOk = true := by
  induction s using twoStepInd with
  | nil => rfl
  | one a => simp at he
  | two a b t ih =>
    have ht : t.length % 2 = 0 := by
      simp only [List.length_cons] at he
      omega
    have hch : chunk2 (a :: b :: t) = [a, b] :: chunk2 t := rfl
    obtain ⟨n, hn⟩ := hp [a, b] (by rw [hch]; exact List.mem_cons_self _ _)
    have hpt : ∀ p ∈ chunk2 t, ∃ m : Nat, int16? p = some (m : Int) := by
      intro p hq
      exact hp p (by rw [hch]; exact List.mem_cons_of_mem _ hq)
    have hOk := ih ht hpt
    obtain ⟨mT, hmT⟩ : ∃ mT, hex_to_dirs t = .ok mT := by
      cases hht : hex_to_dirs t with
      | error e => rw [hht] at hOk; exact Bool.noConfusion hOk
      | ok v => exact ⟨v, rfl⟩
    obtain ⟨hb1, hb2⟩ := int16?_bounds hn
    have hn256 : n < 256 := by omega
    have hB : mapDirs ((chunk2 (zfill8 (pyBin (n : Int)))).reverse)
        = .ok (spec_byte_moves n) := by
      rw [pyBin_natCast]
      exact byte_groups_ok ⟨n, hn256⟩
    rw [hex_to_dirs_cons_ok ht hn hB hmT]
    rfl

theorem hex_ok_inv {a b : Char} {t : List Char}
    (h : (hex_to_dirs (a :: b :: t)).isOk = true) :
    t.length % 2 = 0
    ∧ (∃ n : Nat, int16? [a, b] = some (n : Int))
    ∧ (hex_to_dirs t).isOk = true := by
  by_cases ht : t.length % 2 = 0
  case neg =>
    exfalso
    have he : ¬((a :: b :: t).length % 2 = 0) := by
      simp only [List.length_cons]
      omega
    unfold hex_to_dirs at h
    rw [if_neg he] at h
    exact Bool.noConfusion h
  case pos =>
    have he2 : (a :: b :: t).length % 2 = 0 := by
      simp only [List.length_cons]
      omega
    rw [hex_to_dirs_even _ he2] at h
    have hch : chunk2 (a :: b :: t) = [a, b] :: chunk2 t := rfl
    rw [hch, binBytes_cons] at h
    cases hab : int16? [a, b] with
    | none =>
      have hbb : binByte? [a, b] = .error .valueError := by
        unfold binByte?
        rw [hab]
      rw [hbb] at h
      exact Bool.noConfusion h
    | some d =>
      have hbb : binByte? [a, b] = .ok (zfill8 (pyBin d)) := by
        unfold binByte?
        rw [hab]
      rw [hbb] at h
      cases hbs : binBytes (chunk2 t) with
      | error e =>
        rw [hbs] at h
        exact Bool.noConfusion h
      | ok bs =>
        rw [hbs] at h
        have h' : (mapDirs ((chunk2 (zfill8 (pyBin d))).reverse
            ++ collect_pairs bs)).isOk = true := h
        obtain ⟨h1, h2⟩ := mapDirs_append_isOk h'
        refine ⟨ht, ?_, ?_⟩
        · rcases le_or_lt 0 d with hd | hd
          · refine ⟨d.toNat, ?_⟩
            rw [Int.toNat_of_nonneg hd]
          · exfalso
            obtain ⟨hb1, hb2⟩ := int16?_bounds hab
            have hfin : ((-d).toNat - 1 : Nat) < 15 := by omega
            have hneg : mapDirs ((chunk2 (zfill8 (pyBin
                (-(((((-d).toNat - 1 : Nat)) : Int) + 1))))).reverse)
                = .error .keyError := byte_groups_neg ⟨(-d).toNat - 1, hfin⟩
            have hdeq : -(((((-d).toNat - 1 : Nat)) : Int) + 1) = d := by omega
            rw [hdeq] at hneg
            rw [hneg] at h1
            exact Bool.noConfusion h1
        · rw [hex_to_dirs_even _ ht, hbs]
          exact h2

theorem hex_ok_iff (s : List Char) :
    (hex_to_dirs s).isOk = true
      ↔ (s.length % 2 = 0 ∧ ∀ p ∈ chunk2 s, ∃ n : Nat, int16? p = some (n : Int)) := by
  induction s using twoStepInd with
  | nil =>
    constructor
    · intro _
      refine ⟨rfl, ?_⟩
      intro p hp
      simp [chunk2] at hp
    · intro _
      rfl
  | one a =>
    constructor
    · intro h
      exfalso
      unfold hex_to_dirs at h
      rw [if_neg (by simp)] at h
      exact Bool.noConfusion h
    · rintro ⟨he, _⟩
      simp at he
  | two a b t ih =>
    constructor
    · intro h
      obtain ⟨ht, hab, hok⟩ := hex_ok_inv h
      obtain ⟨ht2, hpt⟩ := ih.mp hok
      refine ⟨by simp only [List.length_cons]; omega, ?_⟩
      intro p hp
      have hch : chunk2 (a :: b :: t) = [a, b] :: chunk2 t := rfl
      rw [hch] at hp
      rcases List.mem_cons.mp hp with rfl | hp2
      · exact hab
      · exact hpt p hp2
    · rintro ⟨he, hp⟩
      exact hex_ok_of_pairs _ he hp

/-- C5 counterexample: the string with a plus sign before a zero digit
contains a character that is not a hex digit, yet decoding succeeds and
returns four moves, because Python int(pair, 16) accepts a signed
digit. -/
theorem C5_counterexample :
    hex_to_dirs "+0".data = .ok [NW, NW, NW, NW]
    ∧ "+0".data.length % 2 = 0
    ∧ hexVal? '+' = none := ⟨by decide, by decide, by decide⟩

/-- C5 amended: restricted to ASCII strings (every code point below
128), decoding succeeds exactly when the string has even length and
every two-character pair is accepted by Python int(pair, 16) with a
nonnegative value; in particular every even-length hex-digit string
succeeds and every odd-length string fails with the assertion error
before any walk state exists, but a pair formed by a sign or ASCII
whitespace next to a single hex digit is also accepted even though it
contains a non-hex-digit character.  Beyond ASCII, Python int
additionally normalizes Unicode whitespace and Unicode decimal digits
to ASCII before parsing and so accepts still more non-hex strings;
those inputs lie outside this statement's ASCII hypothesis. -/
theorem C5_amended (s : List Char) (hascii : ∀ c ∈ s, c.toNat < 128) :
    ((hex_to_dirs s).isOk = true
      ↔ (s.length % 2 = 0 ∧ ∀ p ∈ chunk2 s, ∃ n : Nat, int16? p = some (n : Int)))
    ∧ (s.length % 2 ≠ 0 → hex_to_dirs s = .error .assertionError) := by
  refine ⟨hex_ok_iff s, ?_⟩
  intro h
  unfold hex_to_dirs
  rw [if_neg h]

theorem C5_amended_witness :
    hex_to_dirs "abc".data = .error .assertionError :=
  (C5_amended "abc".data (by decide)).2 (by decide)

theorem splitNL_cons (c : Char) (rest : List Char) :
    splitNL (c :: rest)
      = match splitNL rest with
        | [] => [[]]
        | h :: t => if c = '\n' then [] :: h :: t else (c :: h) :: t := rfl

theorem splitNL_ne_nil (l : List Char) : splitNL l ≠ [] := by
  cases l with
  | nil => simp [splitNL]
  | cons c rest =>
    rw [splitNL_cons]
    cases splitNL rest with
    | nil => simp
    | cons hh tt =>
      by_cases hc : c = '\n' <;> simp [hc]

theorem splitNL_no_nl (l : List Char) (h : '\n' ∉ l) : splitNL l = [l] := by
  induction l with
  | nil => rfl
  | cons c rest ih =>
    have hc : c ≠ '\n' := fun hc => h (by simp [hc])
    have hr : '\n' ∉ rest := fun hr => h (List.mem_cons_of_mem _ hr)
    rw [splitNL_cons, ih hr]
    simp [hc]

theorem splitNL_append_nl (l1 rest : List Char) (h : '\n' ∉ l1) :
    splitNL (l1 ++ '\n' :: rest) = l1 :: splitNL rest := by
  induction l1 with
  | nil =>
    simp only [List.nil_append]
    rw [splitNL_cons]
    cases hsp : splitNL rest with
    | nil => exact absurd hsp (splitNL_ne_nil rest)
    | cons hh tt => simp
  | cons c l1 ih =>
    have hc : c ≠ '\n' := fun hc => h (by simp [hc])
    have hl : '\n' ∉ l1 := fun hl => h (List.mem_cons_of_mem _ hl)
    simp only [List.cons_append]
    rw [splitNL_cons, ih hl]
    simp [hc]

theorem splitNL_flatten (ls : List (List Char)) (tail : List Char)
    (h1 : ∀ l ∈ ls, '\n' ∉ l) (h2 : '\n' ∉ tail) :
    splitNL ((ls.map (fun l => l ++ ['\n'])).flatten ++ tail) = ls ++ [tail] := by
  induction ls with
  | nil =>
    simp only [List.map_nil, List.flatten_nil, List.nil_append]
    exact splitNL_no_nl tail h2
  | cons l ls ih =>
    have hl : '\n' ∉ l := h1 l (List.mem_cons_self _ _)
    have hls : ∀ q ∈ ls, '\n' ∉ q := fun q hq => h1 q (List.mem_cons_of_mem _ hq)
    simp only [List.map_cons, List.flatten_cons, List.append_assoc,
      List.singleton_append, List.cons_append, List.nil_append]
    rw [splitNL_append_nl _ _ hl, ih hls]

theorem nl_not_mem_replicate (n : Nat) (c : Char) (hc : c ≠ '\n') :
    '\n' ∉ List.replicate n c := by
  intro h
  exact hc (List.eq_of_mem_replicate h).symm

theorem nl_not_mem_border (w : Int) : '\n' ∉ border_line w := by
  intro h
  unfold border_line at h
  rcases List.mem_append.mp h with h1 | h1
  · rcases List.mem_cons.mp h1 with h2 | h2
    · exact absurd h2 (by decide)
    · exact nl_not_mem_replicate _ _ (by decide) h2
  · exact absurd (List.mem_singleton.mp h1) (by decide)

theorem nl_not_mem_row (self : RandomArt) (room : Int × Int → Nat) (y : Nat) :
    '\n' ∉ row_line self room y := by
  intro h
  unfold row_line at h
  rcases List.mem_append.mp h with h1 | h1
  · rcases List.mem_cons.mp h1 with h2 | h2
    · exact absurd h2 (by decide)
    · obtain ⟨x, hx, h3⟩ := List.mem_map.mp h2
      exact get_coin_sym_ne_nl _ h3
  · exact absurd (List.mem_singleton.mp h1) (by decide)

theorem mem_pyCenter {c : Char} {s : List Char} {w : Int} {fill : Char}
    (h : c ∈ pyCenter s w fill) : c ∈ s ∨ c = fill := by
  unfold pyCenter at h
  split at h
  · exact Or.inl h
  · simp only [List.mem_append, List.mem_replicate] at h
    rcases h with (h | h) | h
    · exact Or.inr h.2
    · exact Or.inl h
    · exact Or.inr h.2

theorem nl_not_mem_bottom (self : RandomArt) (w : Nat)
    (hsize : self.room_size.1 = (w : Int)) (hl : labelOk self.hashalg w) :
    '\n' ∉ bottom_line self := by
  unfold bottom_line
  cases hha : self.hashalg with
  | none => exact nl_not_mem_border _
  | some l =>
    have hl' : l = "" ∨ ('\n' ∉ l.data ∧ l.length + 2 ≤ w) := by
      rw [hha] at hl
      exact hl
    show '\n' ∉ (if l = "" then border_line self.room_size.1
      else '+' :: pyCenter ('[' :: l.data ++ [']']) self.room_size.1 '-' ++ ['+'])
    by_cases he : l = ""
    · rw [if_pos he]
      exact nl_not_mem_border _
    · rw [if_neg he]
      intro hmem
      rcases List.mem_append.mp hmem with h1 | h1
      · rcases List.mem_cons.mp h1 with h2 | h2
        · exact absurd h2 (by decide)
        · rcases mem_pyCenter h2 with h3 | h3
          · rcases hl' with hl0 | ⟨hnl, _⟩
            · exact he hl0
            · rcases List.mem_append.mp h3 with h4 | h4
              · rcases List.mem_cons.mp h4 with h5 | h5
                · exact absurd h5 (by decide)
                · exact hnl h5
              · exact absurd (List.mem_singleton.mp h4) (by decide)
          · exact absurd h3 (by decide)
      · exact absurd (List.mem_singleton.mp h1) (by decide)

theorem border_line_length (w : Int) : (border_line w).length = w.toNat + 2 := by
  simp only [border_line, List.length_cons, List.length_append, List.length_replicate,
    List.length_singleton, List.length_nil]

theorem row_line_length (self : RandomArt) (room : Int × Int → Nat) (y : Nat) :
    (row_line self room y).length = self.room_size.1.toNat + 2 := by
  simp only [row_line, List.length_cons, List.length_append, List.length_map,
    List.length_range, List.length_singleton, List.length_nil]

theorem pyCenter_length (s : List Char) (w : Int) (fill : Char)
    (h : s.length ≤ w.toNat) : (pyCenter s w fill).length = w.toNat := by
  unfold pyCenter
  split
  · rename_i hw
    omega
  · rename_i hw
    simp only [List.length_append, List.length_replicate]
    generalize hA : ((w - (s.length : Int)).toNat &&& w.toNat &&& 1) = A
    have hb : A ≤ 1 := by
      rw [← hA]
      exact Nat.and_le_right
    omega

theorem bottom_line_length (self : RandomArt) (w : Nat)
    (hsize : self.room_size.1 = (w : Int)) (hl : labelOk self.hashalg w) :
    (bottom_line self).length = w + 2 := by
  unfold bottom_line
  cases hha : self.hashalg with
  | none =>
    show (border_line self.room_size.1).length = w + 2
    rw [border_line_length, hsize, Int.toNat_natCast]
  | some l =>
    have hl' : l = "" ∨ ('\n' ∉ l.data ∧ l.length + 2 ≤ w) := by
      rw [hha] at hl
      exact hl
    show (if l = "" then border_line self.room_size.1
      else '+' :: pyCenter ('[' :: l.data ++ [']']) self.room_size.1 '-' ++ ['+']).length
        = w + 2
    by_cases he : l = ""
    · rw [if_pos he, border_line_length, hsize, Int.toNat_natCast]
    · rw [if_neg he]
      rcases hl' with h0 | ⟨_, hlen⟩
      · exact absurd h0 he
      · have hdata : l.data.length = l.length := rfl
        have hclen : ('[' :: l.data ++ [']']).length ≤ self.room_size.1.toNat := by
          rw [hsize, Int.toNat_natCast]
          simp only [List.length_cons, List.length_append, List.length_singleton,
            List.length_nil]
          omega
        simp only [List.length_cons, List.length_append, List.length_singleton,
          List.length_nil, pyCenter_length _ _ _ hclen]
        rw [hsize, Int.toNat_natCast]

theorem display_lines (self : RandomArt) (room : Int × Int → Nat)
    (hbot : '\n' ∉ bottom_line self) :
    splitNL (self.display room)
      = border_line self.room_size.1
        :: (List.range self.room_size.2.toNat).map (row_line self room)
        ++ [bottom_line self] := by
  unfold RandomArt.display
  have h1 : ∀ l ∈ (border_line self.room_size.1
      :: (List.range self.room_size.2.toNat).map (row_line self room)), '\n' ∉ l := by
    intro l hl
    rcases List.mem_cons.mp hl with rfl | hl2
    · exact nl_not_mem_border _
    · obtain ⟨y, hy, hyl⟩ := List.mem_map.mp hl2
      rw [← hyl]
      exact nl_not_mem_row self room y
  have hsh : (border_line self.room_size.1 ++ ['\n'])
      ++ ((List.range self.room_size.2.toNat).map
        (fun y => row_line self room y ++ ['\n'])).flatten
      ++ bottom_line self
      = (((border_line self.room_size.1
          :: (List.range self.room_size.2.toNat).map (row_line self room)).map
            (fun l => l ++ ['\n'])).flatten) ++ bottom_line self := by
    simp only [List.map_cons, List.flatten_cons, List.map_map, List.append_assoc,
      Function.comp_def]
  rw [hsh, splitNL_flatten _ _ h1 hbot]

/-- C7 counterexample: with room (1, 1) and the label ab, the bracketed
label does not fit in the width, Python center returns it unchanged, and
the bottom border line of the render has 6 characters instead of
width + 2 = 3 (the line count, height + 2 = 3, does still hold). -/
theorem C7_counterexample :
    ((splitNL ((RandomArt.init (some "ab") (1, 1) none).display
        (fun _ => 0))).getD 2 []).length = 6
    ∧ (splitNL ((RandomArt.init (some "ab") (1, 1) none).display
        (fun _ => 0))).length = 3 := ⟨by decide, by decide⟩

/-- C7 amended: for a room with positive width and height, any visit
counter, and a label that is absent, empty, or newline-free and fitting
in the width once bracketed, the rendered output splits at newlines into
exactly height + 2 lines of exactly width + 2 characters each; with no
label (or an empty one) the first and last lines are both the plain
border, which for width 17 is a plus sign, 17 dashes and a plus sign. -/
theorem C7_renderer_shape (self : RandomArt) (w h : Nat) (hw : 1 ≤ w) (hh : 1 ≤ h)
    (hsize : self.room_size = ((w : Int), (h : Int)))
    (hl : labelOk self.hashalg w) (room : Int × Int → Nat) :
    (splitNL (self.display room)).length = h + 2
    ∧ (∀ line ∈ splitNL (self.display room), line.length = w + 2)
    ∧ ((self.hashalg = none ∨ self.hashalg = some "") →
        (splitNL (self.display room)).head? = some (border_line (w : Int))
        ∧ (splitNL (self.display room)).getLast? = some (border_line (w : Int)))
    ∧ border_line 17 = "+-----------------+".data := by
  have hw1 : self.room_size.1 = (w : Int) := by rw [hsize]
  have hh1 : self.room_size.2 = (h : Int) := by rw [hsize]
  have hbot : '\n' ∉ bottom_line self := nl_not_mem_bottom self w hw1 hl
  have hlines := display_lines self room hbot
  refine ⟨?_, ?_, ?_, by decide⟩
  · rw [hlines]
    simp only [List.length_append, List.length_cons, List.length_map,
      List.length_range, List.length_singleton, List.length_nil, hh1,
      Int.toNat_natCast]
  · intro line hline
    rw [hlines] at hline
    rcases List.mem_append.mp hline with h1 | h1
    · rcases List.mem_cons.mp h1 with rfl | h2
      · rw [border_line_length, hw1, Int.toNat_natCast]
      · obtain ⟨y, hy, hyl⟩ := List.mem_map.mp h2
        rw [← hyl, row_line_length, hw1, Int.toNat_natCast]
    · rw [List.mem_singleton.mp h1]
      exact bottom_line_length self w hw1 hl
  · intro hno
    have hbe : bottom_line self = border_line self.room_size.1 := by
      unfold bottom_line
      rcases hno with hno | hno
      · rw [hno]
      · rw [hno]
        show (if "" = "" then border_line self.room_size.1
          else '+' :: pyCenter ('[' :: "".data ++ [']']) self.room_size.1 '-' ++ ['+'])
            = border_line self.room_size.1
        rw [if_pos rfl]
    rw [hlines, hbe, hw1]
    exact ⟨rfl, List.getLast?_concat _⟩

theorem C7_renderer_shape_witness :
    (splitNL ((RandomArt.init none (1, 1) none).display (fun _ => 0))).length = 1 + 2 :=
  (C7_renderer_shape (RandomArt.init none (1, 1) none) 1 1 (by decide) (by decide)
    rfl trivial (fun _ => 0)).1
